import Mathlib

/-!
# Verification of the tsinfer inference core (tsinfer/inference.py)

This file gives a shallow embedding of the parts of `tsinfer/inference.py`
that the specification's claims are about: the probability formulas and the
probability-array validation of `Matcher.__init__`, the wrapper
`Matcher.find_path`, the site-selection loop of
`AncestorsGenerator.add_sites`, the descriptor sorting and root-ancestor
insertion of `AncestorsGenerator.run`, the synchronous and threaded ancestor
build loops, the input-time validation of `generate_ancestors`, the commit
loop of `SampleMatcher._match_samples`, and the restore path of
`SampleMatcher.restore_tree_sequence_builder`.

Machine floats are embedded as exact rationals (`ℚ`) except for the
probability formulas, which use real exponentials (`ℝ`).  The NaN and
tskit-unknown-time sentinels are embedded as explicit constructors of a
`SiteTime` type.  Components of the repository dispatched to the native or
Python algorithm engines (the HMM inner loop, the tree-sequence builder's
edge restore, the ancestor builder) are not part of this source tree; where
a claim depends on one of them it is modelled from the spec and marked as
such in its doc comment.
-/

namespace Tsinfer

/-- tskit.MISSING_DATA, the sentinel marking a missing genotype. -/
def MISSING_DATA : ℤ := -1

/-- The summary returned by `allele_counts`
(`AlleleCounts = collections.namedtuple("AlleleCounts", "known ancestral derived")`). -/
structure AlleleCounts where
  known : ℕ
  ancestral : ℕ
  derived : ℕ
deriving DecidableEq

/-- `allele_counts(genotypes)`: counts of non-missing, ancestral and derived
genotypes (`n_known = sum(g != MISSING_DATA)`, `n_ancestral = sum(g == 0)`,
`derived = n_known - n_ancestral`). -/
def allele_counts (genotypes : List ℤ) : AlleleCounts :=
  let n_known := genotypes.countP (fun g => decide (g ≠ MISSING_DATA))
  let n_ancestral := genotypes.countP (fun g => decide (g = 0))
  { known := n_known, ancestral := n_ancestral, derived := n_known - n_ancestral }

/-- A site time value as stored in a SampleData file: a finite float, the
tskit UNKNOWN_TIME sentinel, or NaN.  (`np.isfinite` is true exactly on the
first constructor; `tskit.is_unknown_time` exactly on the second.) -/
inductive SiteTime where
  | val (t : ℚ)
  | unknown
  | nan
deriving DecidableEq

/-- `np.isfinite` on a site time. -/
def SiteTime.isFinite : SiteTime → Bool
  | .val _ => true
  | _ => false

/-- `tskit.is_unknown_time` on a site time. -/
def SiteTime.isUnknown : SiteTime → Bool
  | .unknown => true
  | _ => false

namespace Matcher

/-- `Matcher.recombination_dist_to_prob`: convert a genetic distance in
Morgans to a recombination probability (Haldane):
`(1 - np.exp(-genetic_distances * 2)) / 2`. -/
noncomputable def recombination_dist_to_prob (d : ℝ) : ℝ :=
  (1 - Real.exp (-d * 2)) / 2

/-- `Matcher.mismatch_ratio_to_prob`: convert a mismatch ratio, relative to a
genetic distance and an allele count, to a mismatch probability:
`(1 - np.exp(-genetic_distances * ratio * num_alleles)) / num_alleles`. -/
noncomputable def mismatch_ratio_to_prob (r d k : ℝ) : ℝ :=
  (1 - Real.exp (-d * r * k)) / k

/-- The validation that `Matcher.__init__` applies to the recombination and
mismatch probability arrays (whether derived from rates or supplied
directly): length checks against `num_intervals` and `num_sites`, and the
range checks `np.all(p >= 0) and np.all(p <= 1)`. -/
def checkProbabilityArrays (recombination mismatch : List ℚ)
    (num_intervals num_sites : ℕ) : Except String Unit :=
  if recombination.length ≠ num_intervals then
    Except.error "Bad length for recombination array"
  else if mismatch.length ≠ num_sites then
    Except.error "Bad length for mismatch array"
  else if ¬ (recombination.all (fun p => decide (0 ≤ p)) ∧
             recombination.all (fun p => decide (p ≤ 1))) then
    Except.error "Underlying recombination probabilities not between 0 & 1"
  else if ¬ (mismatch.all (fun p => decide (0 ≤ p)) ∧
             mismatch.all (fun p => decide (p ≤ 1))) then
    Except.error "Underlying mismatch probabilities not between 0 & 1"
  else
    Except.ok ()

end Matcher

/-- An ancestor descriptor as handled by `AncestorsGenerator.run`:
`(t, tuple(focal_sites))`. -/
abbrev Descriptor : Type := ℚ × List ℕ

/-- The ordering realised by `sorted(d, reverse=True)` in
`AncestorsGenerator.run`: `descGE a b` holds when `a` is placed no later
than `b`, i.e. when `b ≤ a` in Python tuple order (time first, then the
focal-site tuple, lexicographically). -/
def descGE (a b : Descriptor) : Prop :=
  b.1 < a.1 ∨ (b.1 = a.1 ∧ b.2 ≤ a.2)

instance : DecidableRel descGE := fun a b => by
  unfold descGE
  infer_instance

instance : IsTotal Descriptor descGE := by
  constructor
  intro a b
  rcases lt_trichotomy b.1 a.1 with h | h | h
  · exact Or.inl (Or.inl h)
  · rcases le_total b.2 a.2 with h2 | h2
    · exact Or.inl (Or.inr ⟨h, h2⟩)
    · exact Or.inr (Or.inr ⟨h.symm, h2⟩)
  · exact Or.inr (Or.inl h)

instance : IsTrans Descriptor descGE := by
  constructor
  intro a b c hab hbc
  rcases hab with h1 | ⟨h1, h1l⟩ <;> rcases hbc with h2 | ⟨h2, h2l⟩
  · exact Or.inl (h2.trans h1)
  · exact Or.inl (h2 ▸ h1)
  · exact Or.inl (h1 ▸ h2)
  · exact Or.inr ⟨h2.trans h1, h2l.trans h1l⟩

instance : IsAntisymm Descriptor descGE := by
  constructor
  intro a b hab hba
  rcases hab with h1 | ⟨h1, h1l⟩ <;> rcases hba with h2 | ⟨h2, h2l⟩
  · exact absurd (h1.trans h2) (lt_irrefl _)
  · exact absurd (h2 ▸ h1) (lt_irrefl _)
  · exact absurd (h1 ▸ h2) (lt_irrefl _)
  · exact Prod.ext h2 (le_antisymm h2l h1l)

/-- The sorting step of `AncestorsGenerator.run`:
`self.descriptors = sorted(d, reverse=True)`. -/
def sortDescriptors (ds : List Descriptor) : List Descriptor :=
  List.insertionSort descGE ds

/-- Python `max` over a nonempty list (default 0 on the empty list, which the
call site guards against). -/
def listMax : List ℚ → ℚ
  | [] => 0
  | t :: rest => rest.foldl max t

/-- An ancestor as recorded by `ancestor_data.add_ancestor(start, end, time,
focal_sites, haplotype)`.  The exclusive end index is named `stop` because
`end` is reserved in Lean. -/
structure Ancestor where
  start : ℕ
  stop : ℕ
  time : ℚ
  focal_sites : List ℕ
  haplotype : List ℤ
deriving DecidableEq

/-- The loop body shared by `AncestorsGenerator._run_synchronous` and the
threaded build workers: `start, end = ancestor_builder.make_ancestor(
focal_sites, a)` followed by recording `(start, end, t, focal_sites,
a[start:end])`.  `makeAncestor` abstracts `ancestor_builder.make_ancestor`
(it lives in the C/Python algorithm engines, outside this source tree): it
returns the interval and the haplotype slice written into the buffer. -/
def buildAncestor (makeAncestor : List ℕ → ℕ × ℕ × List ℤ) (d : Descriptor) :
    Ancestor :=
  { start := (makeAncestor d.2).1
    stop := (makeAncestor d.2).2.1
    time := d.1
    focal_sites := d.2
    haplotype := (makeAncestor d.2).2.2 }

/-- `AncestorsGenerator._run_synchronous`: build the ancestors one by one in
descriptor order. -/
def run_synchronous (makeAncestor : List ℕ → ℕ × ℕ × List ℤ)
    (ds : List Descriptor) : List Ancestor :=
  ds.map (buildAncestor makeAncestor)

/-- `AncestorsGenerator.run` (here completed with the synchronous build, the
`num_threads <= 0` branch): sort the descriptors in reverse tuple order,
compute the epoch count (the number of distinct timepoints, the length of
`timepoint_to_epoch`), and, when there is at least one descriptor, first add
the two synthetic root ancestors (the virtual root at
`root_time + av_timestep` and the all-zeros ultimate ancestor at
`root_time`, both spanning `[0, num_sites)` with no focal sites), then the
descriptor-derived ancestors. -/
def run (makeAncestor : List ℕ → ℕ × ℕ × List ℤ) (num_sites : ℕ)
    (ds : List Descriptor) : List Ancestor :=
  let descriptors := sortDescriptors ds
  let epochTimes := ((descriptors.map Prod.fst).reverse).dedup
  if descriptors.length > 0 then
    let a : List ℤ := List.replicate num_sites 0
    let root_time0 := listMax epochTimes
    let av_timestep := root_time0 / (epochTimes.length : ℚ)
    let root_time := root_time0 + av_timestep
    { start := 0, stop := num_sites, time := root_time + av_timestep,
      focal_sites := [], haplotype := a } ::
    { start := 0, stop := num_sites, time := root_time,
      focal_sites := [], haplotype := a } ::
    run_synchronous makeAncestor descriptors
  else []

/-- `heapq.heappush` on the `add_queue` of `AncestorsGenerator._run_threaded`.
The heap holds tuples led by the descriptor index and yields them smallest
index first; since the indices are pairwise distinct, the heap is
observationally a list kept sorted by index, which is how it is embedded
here. -/
def heapPush (p : ℕ × Ancestor) : List (ℕ × Ancestor) → List (ℕ × Ancestor)
  | [] => [p]
  | q :: qs => if p.1 ≤ q.1 then p :: q :: qs else q :: heapPush p qs

/-- `drain_add_queue` of `AncestorsGenerator._run_threaded`: while the head
of the add queue carries exactly `next_add_index`, pop it and record its
ancestor.  Returns the ancestors recorded, the new `next_add_index`, and
the remaining queue. -/
def drainAddQueue : ℕ → List (ℕ × Ancestor) → List Ancestor × ℕ × List (ℕ × Ancestor)
  | next, [] => ([], next, [])
  | next, (i, anc) :: qs =>
    if i = next then
      let r := drainAddQueue (next + 1) qs
      (anc :: r.1, r.2.1, r.2.2)
    else ([], next, (i, anc) :: qs)

/-- The state protected by `add_lock` in `AncestorsGenerator._run_threaded`:
`next_add_index`, the `add_queue`, and the ancestors added so far. -/
structure BuildState where
  next_add_index : ℕ
  add_queue : List (ℕ × Ancestor)
  added : List Ancestor
deriving DecidableEq

/-- One work item completing in a build worker of `_run_threaded`: the
ancestor is built outside the lock, then, holding `add_lock`, it is pushed
onto the add queue with its descriptor index and the queue is drained. -/
def threadStep (makeAncestor : List ℕ → ℕ × ℕ × List ℤ) (st : BuildState)
    (work : ℕ × Descriptor) : BuildState :=
  let q := heapPush (work.1, buildAncestor makeAncestor work.2) st.add_queue
  let r := drainAddQueue st.next_add_index q
  { next_add_index := r.2.1, add_queue := r.2.2, added := st.added ++ r.1 }

/-- The tail of `_run_threaded` after the worker threads are joined: the
final `drain_add_queue()` and the resulting full list of added ancestors. -/
def finishThreaded (st : BuildState) : List Ancestor :=
  st.added ++ (drainAddQueue st.next_add_index st.add_queue).1

/-- `AncestorsGenerator._run_threaded`, with thread nondeterminism made
explicit: the build workers complete the work items of
`enumerate(self.descriptors)` in an arbitrary order `completed` (insertions
into the add queue happen one at a time under `add_lock`, so the
completions are totally ordered and `completed` is some permutation of the
enumerated descriptors).  After the workers are joined, a final
`drain_add_queue()` runs. -/
def run_threaded (makeAncestor : List ℕ → ℕ × ℕ × List ℤ)
    (completed : List (ℕ × Descriptor)) : List Ancestor :=
  finishThreaded (completed.foldl (threadStep makeAncestor)
    { next_add_index := 0, add_queue := [], added := [] })

/-- Ordered insertion of an index into a sorted index list; the picture of
`heapPush` on the queue's (distinct) indices. -/
def insertIdxSorted (i : ℕ) : List ℕ → List ℕ
  | [] => [i]
  | k :: ks => if i ≤ k then i :: k :: ks else k :: insertIdxSorted i ks

/-- A site as seen by `AncestorsGenerator.add_sites` through
`sample_data.variants(recode_ancestral=True)`. -/
structure Site where
  position : ℚ
  time : SiteTime
  ancestral_state : Option String
deriving DecidableEq

/-- A variant row: the site, its allele list (the last allele is `None`
exactly when the genotypes contain missing data), and the genotypes. -/
structure Variant where
  site : Site
  alleles : List (Option String)
  genotypes : List ℤ
deriving DecidableEq

/-- `num_alleles = len(variant.alleles) - int(variant.alleles[-1] is None)`. -/
def Variant.num_alleles (v : Variant) : ℕ :=
  v.alleles.length - (if v.alleles.getLast? = some none then 1 else 0)

/-- The per-variant decision of the loop in `AncestorsGenerator.add_sites`:
`some t` when the site is used for inference at time `t`, `none` when it is
skipped.  A suitable site (not excluded, exactly two alleles, derived count
strictly between 1 and the known count, defined ancestral state) is used at
`site.time`, replaced by the derived-allele frequency when the time is
unknown, unless the resulting time is NaN. -/
def add_sites_decision (exclude_positions : List ℚ) (v : Variant) : Option ℚ :=
  if v.site.position ∉ exclude_positions ∧ v.num_alleles = 2 ∧
      1 < (allele_counts v.genotypes).derived ∧
      (allele_counts v.genotypes).derived < (allele_counts v.genotypes).known ∧
      v.site.ancestral_state ≠ none then
    match v.site.time with
    | SiteTime.unknown =>
        some (((allele_counts v.genotypes).derived : ℚ) /
          ((allele_counts v.genotypes).known : ℚ))
    | SiteTime.nan => none
    | SiteTime.val t => some t
  else none

/-- `AncestorsGenerator.add_sites`: the sites accepted for inference, as the
`(time, genotypes)` pairs passed to `ancestor_builder.add_site`, together
with the accepted site ids (`inference_site_id`). -/
def add_sites (exclude_positions : List ℚ) (variants : List Variant) :
    List (ℚ × List ℤ) × List ℕ :=
  let used := variants.enum.filterMap (fun p =>
    match add_sites_decision exclude_positions p.2 with
    | some t => some (p.1, t, p.2.genotypes)
    | none => none)
  (used.map (fun q => (q.2.1, q.2.2)), used.map (fun q => q.1))

/-- `generate_ancestors`: the up-front validation that `sample_data` does not
mix finite user-specified site times with unknown (times-as-frequencies)
site times, followed by `add_sites` and `AncestorsGenerator.run`.  The
ancestor builder (`ancestor_descriptors`) lives in the C/Python algorithm
engines outside this source tree and is abstracted as the `descriptors_of`
parameter. -/
def generate_ancestors (descriptors_of : List (ℚ × List ℤ) → List Descriptor)
    (makeAncestor : List ℕ → ℕ × ℕ × List ℤ)
    (exclude_positions : List ℚ) (variants : List Variant) :
    Except String (List Ancestor) :=
  let sites_time := variants.map (fun v => v.site.time)
  if (sites_time.any SiteTime.isFinite) && (sites_time.any SiteTime.isUnknown) then
    Except.error
      "Cannot generate ancestors from a sample_data instance that mixes user-specified times with times-as-frequencies. To explicitly set an undefined time for a site, permanently excluding it from inference, set it to np.nan."
  else
    let added := add_sites exclude_positions variants
    Except.ok (run makeAncestor added.1.length (descriptors_of added.1))

/-- A copying path as produced by the matcher: parallel arrays of edge
intervals and parents. -/
structure Path where
  left : List ℕ
  right : List ℕ
  parent : List ℕ
deriving DecidableEq

/-- The `MatchResult` dataclass (the diagnostic `mean_traceback_size` field
is omitted). -/
structure MatchResult where
  node : ℕ
  path : Path
  mutations_site : List ℕ
  mutations_derived_state : List ℤ
deriving DecidableEq

/-- Modelled from the spec: the engine-level `matcher.find_path` (the
`AncestorMatcher` of the C/Python algorithm engines, which is not in this
source tree).  Per the spec's MatchEngine contract and traceback
description, it computes the copying path and writes into the match buffer,
at every site of `[start, end)`, the allele of the copied parent at that
site.  The copied-parent alleles and the path are abstract inputs here. -/
def engineFindPath (parentAllele : ℕ → ℤ) (path : Path) (start stop : ℕ)
    (buffer : ℕ → ℤ) : Path × (ℕ → ℤ) :=
  (path, fun j => if start ≤ j ∧ j < stop then parentAllele j else buffer j)

/-- The static `Matcher.find_path` wrapper: run the engine matcher into a
buffer initialised to MISSING_DATA, restore MISSING_DATA at query-missing
sites (`match[missing] = tskit.MISSING_DATA`), then record mutations at
`start + np.where(haplotype[start:end] != match[start:end])`, with derived
states `haplotype[diffs]`. -/
def Matcher.find_path (parentAllele : ℕ → ℤ) (path : Path) (child_id : ℕ)
    (haplotype : ℕ → ℤ) (start stop : ℕ) : MatchResult :=
  let res := engineFindPath parentAllele path start stop (fun _ => MISSING_DATA)
  let mtch : ℕ → ℤ := fun j =>
    if haplotype j = MISSING_DATA then MISSING_DATA else res.2 j
  let diffs := ((List.range (stop - start)).map (start + ·)).filter
    (fun j => decide (haplotype j ≠ mtch j))
  { node := child_id
    path := res.1
    mutations_site := diffs
    mutations_derived_state := diffs.map haplotype }

/-- `np.argmin` over node times applied to a parent array: the first parent
achieving the minimal time
(`result.path.parent[np.argmin(times[result.path.parent])]`). -/
def argminTime (times : ℕ → ℚ) : List ℕ → ℕ
  | [] => 0
  | p :: ps => ps.foldl (fun best q => if times q < times best then q else best) p

/-- The state of the tree sequence builder as mutated by the commit loop of
`SampleMatcher._match_samples`: the paths recorded with `add_path` and the
mutations recorded with `add_mutations`, keyed by child node. -/
structure TsbState where
  paths : List (ℕ × Path)
  muts : List (ℕ × List ℕ × List ℤ)
deriving DecidableEq

/-- `tree_sequence_builder.add_path(child, left, right, parent, ...)`. -/
def TsbState.add_path (s : TsbState) (node : ℕ) (p : Path) : TsbState :=
  { s with paths := s.paths ++ [(node, p)] }

/-- `tree_sequence_builder.add_mutations(child, site, derived_state)`. -/
def TsbState.add_mutations (s : TsbState) (node : ℕ) (sites : List ℕ)
    (states : List ℤ) : TsbState :=
  { s with muts := s.muts ++ [(node, sites, states)] }

/-- The commit loop at the end of `SampleMatcher._match_samples`: for each
match result in order, if some parent on the path is strictly younger than
the sample node (`np.any(times[node_id] > times[result.path.parent])`),
raise — returning the offending sample node and the youngest parent
(`p = result.path.parent[np.argmin(times[result.path.parent])]`) and
leaving the builder untouched by this and all later results; otherwise add
the path and the mutations. -/
def commitSamplePaths (times : ℕ → ℚ) : List MatchResult → TsbState →
    TsbState × Option (ℕ × ℕ)
  | [], s => (s, none)
  | r :: rs, s =>
    if r.path.parent.any (fun p => decide (times r.node > times p)) then
      (s, some (r.node, argminTime times r.path.parent))
    else
      commitSamplePaths times rs
        ((s.add_path r.node r.path).add_mutations r.node
          r.mutations_site r.mutations_derived_state)

/-- An edge row of an ancestors tree sequence table; `left` and `right` are
genome positions. -/
structure TsEdge where
  left : ℚ
  right : ℚ
  parent : ℕ
  child : ℕ
deriving DecidableEq

/-- The ordering realised by `np.lexsort((left, edges.child))` in
`SampleMatcher.restore_tree_sequence_builder`: by child id, then by left
coordinate. -/
def edgeLE (e1 e2 : TsEdge) : Prop :=
  e1.child < e2.child ∨ (e1.child = e2.child ∧ e1.left ≤ e2.left)

instance : DecidableRel edgeLE := fun e1 e2 => by
  unfold edgeLE
  infer_instance

/-- Modelled from the spec: `TreeSequenceBuilder.restore_edges` of the
C/Python algorithm engines (not in this source tree) rebuilds the internal
indices from a previously produced graph, re-validating the time-ordering
invariant — a node's time must be ≥ the time of every node it copies from,
so an edge whose parent is strictly younger than its child is an error. -/
def restore_edges (times : List ℚ) (edges : List TsEdge) : Except String Unit :=
  if edges.any (fun e => decide (times.getD e.parent 0 < times.getD e.child 0)) then
    Except.error "time ordering violated: a child copies from a younger parent"
  else Except.ok ()

/-- `SampleMatcher.restore_tree_sequence_builder`: check the sequence
length against the sample data, check all node times are positive, check
every edge coordinate is an inference site position, sort the edges by
(child, left), and hand them to the builder restore, which re-validates the
time-ordering invariant. -/
def restore_tree_sequence_builder (sample_sequence_length ts_sequence_length : ℚ)
    (position_map : List ℚ) (nodes_time : List ℚ) (edges : List TsEdge) :
    Except String Unit :=
  if sample_sequence_length ≠ ts_sequence_length then
    Except.error
      "Ancestors tree sequence not compatible: sequence length is different to sample data file."
  else if nodes_time.any (fun t => decide (t ≤ 0)) then
    Except.error "All nodes must have time > 0"
  else if edges.any (fun e => decide (e.left ∉ position_map)) then
    Except.error "Invalid left coordinates"
  else if edges.any (fun e => decide (e.right ∉ position_map)) then
    Except.error "Invalid right coordinates"
  else
    restore_edges nodes_time (List.insertionSort edgeLE edges)

end Tsinfer

namespace Tsinfer

/-- C3: the recombination probability equals the Haldane formula
`(1 - e^(-2 d)) / 2`, and the mismatch probability equals
`(1 - e^(-d r k)) / k`, for every non-negative genetic distance. -/
theorem C3_probability_formulas (d r k : ℝ) (hd : 0 ≤ d) :
    Matcher.recombination_dist_to_prob d = (1 - Real.exp (-(2 * d))) / 2 ∧
    Matcher.mismatch_ratio_to_prob r d k = (1 - Real.exp (-(d * r * k))) / k := by
  constructor
  · unfold Matcher.recombination_dist_to_prob
    ring_nf
  · unfold Matcher.mismatch_ratio_to_prob
    ring_nf

/-- Witness for C3 at the concrete distance d = 1. -/
theorem C3_probability_formulas_witness :
    Matcher.recombination_dist_to_prob 1 = (1 - Real.exp (-(2 * 1))) / 2 ∧
    Matcher.mismatch_ratio_to_prob 3 1 2 = (1 - Real.exp (-(1 * 3 * 2))) / 2 :=
  C3_probability_formulas 1 3 2 (by norm_num)

/-- C4 counterexample: a directly supplied probability of 9/10 > 1/2 passes
the Matcher's validation without error: values above 0.5 are accepted
silently, not rejected or flagged. -/
theorem C4_counterexample :
    (1 : ℚ) / 2 < 9 / 10 ∧
    Matcher.checkProbabilityArrays [9 / 10] [9 / 10, 9 / 10] 1 2 =
      Except.ok () := by
  constructor
  · norm_num
  · rw [Matcher.checkProbabilityArrays, if_neg (by norm_num), if_neg (by norm_num),
      if_neg (not_not_intro (by norm_num [List.all_eq_true])),
      if_neg (not_not_intro (by norm_num [List.all_eq_true]))]

/-- C4 (amended): probabilities derived from `recombination_rate` and
`mismatch_ratio` never exceed 0.5 (for any genetic distance and any allele
count of at least two), but directly supplied probability arrays are
validated only for length and for lying within [0, 1]; a value in
(0.5, 1] is accepted. -/
theorem C4_probability_bounds (d r k : ℝ) (hk : 2 ≤ k)
    (recombination mismatch : List ℚ) (num_intervals num_sites : ℕ)
    (hrl : recombination.length = num_intervals)
    (hml : mismatch.length = num_sites) :
    Matcher.recombination_dist_to_prob d ≤ 1 / 2 ∧
    Matcher.mismatch_ratio_to_prob r d k ≤ 1 / 2 ∧
    (Matcher.checkProbabilityArrays recombination mismatch num_intervals
        num_sites = Except.ok () ↔
      (∀ p ∈ recombination, 0 ≤ p ∧ p ≤ 1) ∧ (∀ p ∈ mismatch, 0 ≤ p ∧ p ≤ 1)) := by
  have hk0 : (0 : ℝ) < k := lt_of_lt_of_le (by norm_num) hk
  have hchar : ∀ l : List ℚ,
      ((l.all fun p => decide (0 ≤ p)) ∧ (l.all fun p => decide (p ≤ 1))) ↔
        ∀ p ∈ l, 0 ≤ p ∧ p ≤ 1 := by
    intro l
    rw [List.all_eq_true, List.all_eq_true]
    constructor
    · intro h p hp
      exact ⟨by simpa using h.1 p hp, by simpa using h.2 p hp⟩
    · intro h
      exact ⟨fun p hp => by simp [(h p hp).1], fun p hp => by simp [(h p hp).2]⟩
  refine ⟨?_, ?_, ?_⟩
  · unfold Matcher.recombination_dist_to_prob
    have h1 : (0 : ℝ) ≤ Real.exp (-d * 2) := Real.exp_nonneg _
    linarith
  · unfold Matcher.mismatch_ratio_to_prob
    have h1 : (0 : ℝ) ≤ Real.exp (-d * r * k) := Real.exp_nonneg _
    have h2 : (1 - Real.exp (-d * r * k)) / k ≤ 1 / k :=
      (div_le_div_iff_of_pos_right hk0).mpr (by linarith)
    have h3 : (1 : ℝ) / k ≤ 1 / 2 := one_div_le_one_div_of_le (by norm_num) hk
    exact h2.trans h3
  · rw [Matcher.checkProbabilityArrays, if_neg (by simp [hrl]), if_neg (by simp [hml])]
    by_cases h1 : ∀ p ∈ recombination, 0 ≤ p ∧ p ≤ 1
    · rw [if_neg (not_not_intro ((hchar recombination).mpr h1))]
      by_cases h2 : ∀ p ∈ mismatch, 0 ≤ p ∧ p ≤ 1
      · rw [if_neg (not_not_intro ((hchar mismatch).mpr h2))]
        exact iff_of_true rfl ⟨h1, h2⟩
      · rw [if_pos (fun hcon => h2 ((hchar mismatch).mp hcon))]
        exact iff_of_false (fun hcon => Except.noConfusion hcon)
          (fun hcon => h2 hcon.2)
    · rw [if_pos (fun hcon => h1 ((hchar recombination).mp hcon))]
      exact iff_of_false (fun hcon => Except.noConfusion hcon)
        (fun hcon => h1 hcon.1)

/-- Witness for C4 at concrete inputs. -/
theorem C4_probability_bounds_witness :
    Matcher.recombination_dist_to_prob 1 ≤ 1 / 2 ∧
    Matcher.mismatch_ratio_to_prob 3 1 2 ≤ 1 / 2 ∧
    (Matcher.checkProbabilityArrays [1 / 4] [0, 1] 1 2 = Except.ok () ↔
      (∀ p ∈ [(1 : ℚ) / 4], 0 ≤ p ∧ p ≤ 1) ∧ (∀ p ∈ [(0 : ℚ), 1], 0 ≤ p ∧ p ≤ 1)) :=
  C4_probability_bounds 1 3 2 (by norm_num) [1 / 4] [0, 1] 1 2 rfl rfl

theorem allele_counts_known (g : List ℤ) :
    (allele_counts g).known = g.countP (fun x => decide (x ≠ MISSING_DATA)) := rfl

theorem allele_counts_ancestral (g : List ℤ) :
    (allele_counts g).ancestral = g.countP (fun x => decide (x = 0)) := rfl

theorem allele_counts_derived (g : List ℤ) :
    (allele_counts g).derived =
      g.countP (fun x => decide (x ≠ MISSING_DATA)) -
        g.countP (fun x => decide (x = 0)) := rfl

theorem countP_known_split (l : List ℤ)
    (hg : ∀ g ∈ l, g = MISSING_DATA ∨ g = 0 ∨ g = 1) :
    l.countP (fun g => decide (g ≠ MISSING_DATA)) =
      l.countP (fun g => decide (g = 0)) + l.countP (fun g => decide (g = 1)) := by
  induction l with
  | nil => simp
  | cons a l ih =>
    have ha := hg a (List.mem_cons_self a l)
    have ih2 := ih (fun g hgm => hg g (List.mem_cons_of_mem a hgm))
    rcases ha with h | h | h <;> subst h <;>
      simp [List.countP_cons, MISSING_DATA] at ih2 ⊢ <;> omega

/-- C1: the mutations recorded by `Matcher.find_path` are exactly the sites
of [start, stop) where the non-missing query allele differs from the copied
parent's allele; a query-missing site never yields a mutation; and every
recorded derived state is the query allele at that site. -/
theorem C1_find_path_mutations (parentAllele : ℕ → ℤ) (path : Path)
    (child_id : ℕ) (haplotype : ℕ → ℤ) (start stop : ℕ) :
    (∀ j, j ∈ (Matcher.find_path parentAllele path child_id haplotype
        start stop).mutations_site ↔
      (start ≤ j ∧ j < stop ∧ haplotype j ≠ MISSING_DATA ∧
        haplotype j ≠ parentAllele j)) ∧
    (Matcher.find_path parentAllele path child_id haplotype start
        stop).mutations_derived_state =
      ((Matcher.find_path parentAllele path child_id haplotype start
        stop).mutations_site).map haplotype := by
  constructor
  · intro j
    simp only [Matcher.find_path, engineFindPath, List.mem_filter,
      List.mem_map, List.mem_range, decide_eq_true_eq]
    constructor
    · rintro ⟨⟨i, hi, rfl⟩, hne⟩
      have h1 : start ≤ start + i := Nat.le_add_right _ _
      have h2 : start + i < stop := by omega
      by_cases hm : haplotype (start + i) = MISSING_DATA
      · rw [if_pos hm] at hne
        exact absurd hm hne
      · rw [if_neg hm, if_pos ⟨h1, h2⟩] at hne
        exact ⟨h1, h2, hm, hne⟩
    · rintro ⟨h1, h2, hm, hp⟩
      refine ⟨⟨j - start, by omega, by omega⟩, ?_⟩
      rw [if_neg hm, if_pos ⟨h1, h2⟩]
      exact hp
  · rfl

/-- C9: a sample-data instance mixing finite user-specified site times with
unknown (times-as-frequencies) site times makes `generate_ancestors` fail
with the validation error immediately; no ancestor is built and no result
is produced. -/
theorem C9_mixed_times_rejected
    (descriptors_of : List (ℚ × List ℤ) → List Descriptor)
    (makeAncestor : List ℕ → ℕ × ℕ × List ℤ)
    (exclude_positions : List ℚ) (variants : List Variant)
    (hfin : ∃ v ∈ variants, SiteTime.isFinite v.site.time = true)
    (hunk : ∃ v ∈ variants, SiteTime.isUnknown v.site.time = true) :
    generate_ancestors descriptors_of makeAncestor exclude_positions variants =
      Except.error
        "Cannot generate ancestors from a sample_data instance that mixes user-specified times with times-as-frequencies. To explicitly set an undefined time for a site, permanently excluding it from inference, set it to np.nan." ∧
    ∀ ancestors, generate_ancestors descriptors_of makeAncestor
        exclude_positions variants ≠ Except.ok ancestors := by
  have hcond : ((variants.map (fun v => v.site.time)).any SiteTime.isFinite &&
      (variants.map (fun v => v.site.time)).any SiteTime.isUnknown) = true := by
    rw [Bool.and_eq_true, List.any_eq_true, List.any_eq_true]
    obtain ⟨v1, hv1, h1⟩ := hfin
    obtain ⟨v2, hv2, h2⟩ := hunk
    exact ⟨⟨_, List.mem_map_of_mem _ hv1, h1⟩, ⟨_, List.mem_map_of_mem _ hv2, h2⟩⟩
  have herr : generate_ancestors descriptors_of makeAncestor exclude_positions
      variants = Except.error
        "Cannot generate ancestors from a sample_data instance that mixes user-specified times with times-as-frequencies. To explicitly set an undefined time for a site, permanently excluding it from inference, set it to np.nan." := by
    unfold generate_ancestors
    rw [if_pos hcond]
  exact ⟨herr, fun ancestors hok => by rw [herr] at hok; exact Except.noConfusion hok⟩

/-- Witness for C9: one site with a finite user time and one with unknown
time. -/
theorem C9_mixed_times_rejected_witness :
    generate_ancestors (fun _ => []) (fun _ => (0, 0, []))
      [] [Variant.mk (Site.mk 1 (SiteTime.val 3) (some "A")) [some "A", some "T"] [0, 1, 1],
          Variant.mk (Site.mk 2 SiteTime.unknown (some "A")) [some "A", some "T"] [0, 1, 1]] =
      Except.error
        "Cannot generate ancestors from a sample_data instance that mixes user-specified times with times-as-frequencies. To explicitly set an undefined time for a site, permanently excluding it from inference, set it to np.nan." :=
  (C9_mixed_times_rejected (fun _ => []) (fun _ => (0, 0, [])) []
    [Variant.mk (Site.mk 1 (SiteTime.val 3) (some "A")) [some "A", some "T"] [0, 1, 1],
     Variant.mk (Site.mk 2 SiteTime.unknown (some "A")) [some "A", some "T"] [0, 1, 1]]
    ⟨_, List.mem_cons_self _ _, rfl⟩
    ⟨_, List.mem_cons_of_mem _ (List.mem_cons_self _ _), rfl⟩).1

/-- C10: `add_sites` uses a site only if it has exactly two alleles, a
defined ancestral state, and a derived count strictly between 1 and the
known count; a used site with unknown time is assigned the derived-allele
frequency (derived carriers over non-missing samples); a site whose time is
NaN is never used. -/
theorem C10_add_sites_selection (excl : List ℚ) (v : Variant) :
    (∀ t, add_sites_decision excl v = some t →
      v.num_alleles = 2 ∧ v.site.ancestral_state ≠ none ∧
      1 < (allele_counts v.genotypes).derived ∧
      (allele_counts v.genotypes).derived < (allele_counts v.genotypes).known) ∧
    (v.site.time = SiteTime.unknown →
      (∀ g ∈ v.genotypes, g = MISSING_DATA ∨ g = 0 ∨ g = 1) →
      ∀ t, add_sites_decision excl v = some t →
        t = (v.genotypes.countP (fun g => decide (g = 1)) : ℚ) /
            (v.genotypes.countP (fun g => decide (g ≠ MISSING_DATA)) : ℚ)) ∧
    (v.site.time = SiteTime.nan → add_sites_decision excl v = none) := by
  refine ⟨?_, ?_, ?_⟩
  · intro t ht
    by_cases hc : (v.site.position ∉ excl ∧ v.num_alleles = 2 ∧
        1 < (allele_counts v.genotypes).derived ∧
        (allele_counts v.genotypes).derived < (allele_counts v.genotypes).known ∧
        v.site.ancestral_state ≠ none)
    · exact ⟨hc.2.1, hc.2.2.2.2, hc.2.2.1, hc.2.2.2.1⟩
    · rw [add_sites_decision, if_neg hc] at ht
      exact absurd ht (by simp)
  · intro htime hg t ht
    by_cases hc : (v.site.position ∉ excl ∧ v.num_alleles = 2 ∧
        1 < (allele_counts v.genotypes).derived ∧
        (allele_counts v.genotypes).derived < (allele_counts v.genotypes).known ∧
        v.site.ancestral_state ≠ none)
    · rw [add_sites_decision, if_pos hc] at ht
      rw [htime] at ht
      simp only [Option.some.injEq] at ht
      have hsplit := countP_known_split v.genotypes hg
      have hderived : (allele_counts v.genotypes).derived =
          v.genotypes.countP (fun g => decide (g = 1)) := by
        rw [allele_counts_derived, hsplit]
        omega
      rw [← ht, hderived, allele_counts_known]
    · rw [add_sites_decision, if_neg hc] at ht
      exact absurd ht (by simp)
  · intro htime
    rw [add_sites_decision, htime]
    by_cases hc : (v.site.position ∉ excl ∧ v.num_alleles = 2 ∧
        1 < (allele_counts v.genotypes).derived ∧
        (allele_counts v.genotypes).derived < (allele_counts v.genotypes).known ∧
        v.site.ancestral_state ≠ none)
    · rw [if_pos hc]
    · rw [if_neg hc]

/-- Witness for C10 at concrete variants: one with unknown time (used, at
frequency 2/3), one with NaN time (skipped). -/
theorem C10_add_sites_selection_witness :
    ((Variant.mk (Site.mk 5 SiteTime.unknown (some "A"))
        [some "A", some "T"] [0, 1, 1]).num_alleles = 2 ∧
      (Variant.mk (Site.mk 5 SiteTime.unknown (some "A"))
        [some "A", some "T"] [0, 1, 1]).site.ancestral_state ≠ none ∧
      1 < (allele_counts [0, 1, 1]).derived ∧
      (allele_counts [0, 1, 1]).derived < (allele_counts [0, 1, 1]).known) ∧
    ((((allele_counts [0, 1, 1]).derived : ℚ) /
        ((allele_counts [0, 1, 1]).known : ℚ)) =
      (([0, 1, 1] : List ℤ).countP (fun g => decide (g = 1)) : ℚ) /
        (([0, 1, 1] : List ℤ).countP (fun g => decide (g ≠ MISSING_DATA)) : ℚ)) ∧
    add_sites_decision []
      (Variant.mk (Site.mk 5 SiteTime.nan (some "A"))
        [some "A", some "T"] [0, 1, 1]) = none :=
  ⟨(C10_add_sites_selection []
      (Variant.mk (Site.mk 5 SiteTime.unknown (some "A"))
        [some "A", some "T"] [0, 1, 1])).1 _ rfl,
   (C10_add_sites_selection []
      (Variant.mk (Site.mk 5 SiteTime.unknown (some "A"))
        [some "A", some "T"] [0, 1, 1])).2.1 rfl (by decide) _ rfl,
   (C10_add_sites_selection []
      (Variant.mk (Site.mk 5 SiteTime.nan (some "A"))
        [some "A", some "T"] [0, 1, 1])).2.2 rfl⟩

theorem le_foldl_max (l : List ℚ) : ∀ a : ℚ, a ≤ l.foldl max a := by
  induction l with
  | nil => intro a; simp
  | cons b l ih =>
    intro a
    exact le_trans (le_max_left a b) (ih (max a b))

theorem mem_le_foldl_max (l : List ℚ) : ∀ (a x : ℚ), x ∈ l → x ≤ l.foldl max a := by
  induction l with
  | nil => intro a x hx; exact absurd hx (List.not_mem_nil x)
  | cons b l ih =>
    intro a x hx
    rcases List.mem_cons.mp hx with rfl | hx
    · exact le_trans (le_max_right a x) (le_foldl_max l _)
    · exact ih _ x hx

theorem foldl_max_mem (l : List ℚ) : ∀ a : ℚ, l.foldl max a = a ∨ l.foldl max a ∈ l := by
  induction l with
  | nil => intro a; exact Or.inl rfl
  | cons b l ih =>
    intro a
    rcases ih (max a b) with h | h
    · rcases max_choice a b with hm | hm
      · exact Or.inl (by rw [List.foldl_cons, h, hm])
      · refine Or.inr ?_
        rw [List.foldl_cons, h, hm]
        exact List.mem_cons_self b l
    · exact Or.inr (List.mem_cons_of_mem _ h)

theorem le_listMax (l : List ℚ) (x : ℚ) (hx : x ∈ l) : x ≤ listMax l := by
  cases l with
  | nil => exact absurd hx (List.not_mem_nil x)
  | cons b l =>
    rcases List.mem_cons.mp hx with rfl | hx
    · exact le_foldl_max l x
    · exact mem_le_foldl_max l b x hx

theorem listMax_mem (l : List ℚ) (hne : l ≠ []) : listMax l ∈ l := by
  cases l with
  | nil => exact absurd rfl hne
  | cons b l =>
    rcases foldl_max_mem l b with h | h
    · rw [listMax, h]
      exact List.mem_cons_self b l
    · exact List.mem_cons_of_mem _ h

/-- C5: `AncestorsGenerator.run` orders the descriptors deterministically:
the sorted list is independent of the order in which the builder enumerated
them (any two permutations of the same descriptors sort identically), it is
sorted by time descending then by focal-site tuple (reverse Python tuple
order), and it is a permutation of the input. -/
theorem C5_descriptor_order (l1 l2 : List Descriptor) (hperm : l1.Perm l2) :
    sortDescriptors l1 = sortDescriptors l2 ∧
    (sortDescriptors l1).Sorted descGE ∧
    (sortDescriptors l1).Perm l1 := by
  refine ⟨?_, List.sorted_insertionSort descGE l1, List.perm_insertionSort descGE l1⟩
  exact List.eq_of_perm_of_sorted
    ((List.perm_insertionSort descGE l1).trans
      (hperm.trans (List.perm_insertionSort descGE l2).symm))
    (List.sorted_insertionSort descGE l1)
    (List.sorted_insertionSort descGE l2)

/-- Witness for C5: two enumerations of the same two descriptors. -/
theorem C5_descriptor_order_witness :
    sortDescriptors [((1 : ℚ), [2]), ((2 : ℚ), [1])] =
      sortDescriptors [((2 : ℚ), [1]), ((1 : ℚ), [2])] ∧
    (sortDescriptors [((1 : ℚ), [2]), ((2 : ℚ), [1])]).Sorted descGE ∧
    (sortDescriptors [((1 : ℚ), [2]), ((2 : ℚ), [1])]).Perm
      [((1 : ℚ), [2]), ((2 : ℚ), [1])] :=
  C5_descriptor_order [((1 : ℚ), [2]), ((2 : ℚ), [1])]
    [((2 : ℚ), [1]), ((1 : ℚ), [2])]
    (List.Perm.swap ((2 : ℚ), [1]) ((1 : ℚ), [2]) [])

/-- C7: when at least one descriptor exists (all descriptor times being
positive ages), the first two ancestors recorded by `run` are the synthetic
roots: all-ancestral-allele (all-zero) haplotypes spanning every inference
site [0, num_sites) with no focal sites, strictly older than every
descriptor, inserted before every descriptor-derived ancestor. -/
theorem C7_root_ancestors (makeAncestor : List ℕ → ℕ × ℕ × List ℤ)
    (num_sites : ℕ) (ds : List Descriptor) (hne : ds ≠ [])
    (hpos : ∀ d ∈ ds, 0 < d.1) :
    ∃ r1 r2 rest, run makeAncestor num_sites ds = r1 :: r2 :: rest ∧
      r1.start = 0 ∧ r1.stop = num_sites ∧ r1.focal_sites = [] ∧
      r1.haplotype = List.replicate num_sites 0 ∧
      r2.start = 0 ∧ r2.stop = num_sites ∧ r2.focal_sites = [] ∧
      r2.haplotype = List.replicate num_sites 0 ∧
      (∀ d ∈ ds, d.1 < r2.time ∧ d.1 < r1.time) ∧
      rest = run_synchronous makeAncestor (sortDescriptors ds) := by
  have hperm : (sortDescriptors ds).Perm ds := List.perm_insertionSort descGE ds
  have hlen : (sortDescriptors ds).length > 0 := by
    rw [hperm.length_eq]
    exact List.length_pos.mpr hne
  have hmemT : ∀ x, x ∈ (((sortDescriptors ds).map Prod.fst).reverse).dedup ↔
      x ∈ ds.map Prod.fst := by
    intro x
    rw [List.mem_dedup, List.mem_reverse]
    exact (hperm.map Prod.fst).mem_iff
  have hTne : (((sortDescriptors ds).map Prod.fst).reverse).dedup ≠ [] := by
    intro hnil
    obtain ⟨d, hd⟩ := List.exists_mem_of_ne_nil ds hne
    have : d.1 ∈ ds.map Prod.fst := List.mem_map_of_mem Prod.fst hd
    rw [← hmemT d.1, hnil] at this
    exact List.not_mem_nil _ this
  set T := (((sortDescriptors ds).map Prod.fst).reverse).dedup with hT
  have hMmem : listMax T ∈ ds.map Prod.fst := (hmemT _).mp (listMax_mem T hTne)
  have hMpos : 0 < listMax T := by
    obtain ⟨d, hd, hdx⟩ := List.mem_map.mp hMmem
    exact hdx ▸ hpos d hd
  have hTlenpos : (0 : ℚ) < (T.length : ℚ) := by
    have : T.length ≠ 0 := fun h => hTne (List.length_eq_zero.mp h)
    exact_mod_cast Nat.pos_of_ne_zero this
  have havpos : 0 < listMax T / (T.length : ℚ) := div_pos hMpos hTlenpos
  have hub : ∀ d ∈ ds, d.1 ≤ listMax T := by
    intro d hd
    exact le_listMax T d.1 ((hmemT d.1).mpr (List.mem_map_of_mem Prod.fst hd))
  refine ⟨{ start := 0, stop := num_sites,
            time := listMax T + listMax T / (T.length : ℚ) +
              listMax T / (T.length : ℚ),
            focal_sites := [], haplotype := List.replicate num_sites 0 },
          { start := 0, stop := num_sites,
            time := listMax T + listMax T / (T.length : ℚ),
            focal_sites := [], haplotype := List.replicate num_sites 0 },
          run_synchronous makeAncestor (sortDescriptors ds),
          ?_, rfl, rfl, rfl, rfl, rfl, rfl, rfl, rfl, ?_, rfl⟩
  · simp only [run, ← hT]
    rw [if_pos hlen]
  · intro d hd
    have h1 := hub d hd
    constructor
    · show d.1 < listMax T + listMax T / (T.length : ℚ)
      linarith
    · show d.1 < listMax T + listMax T / (T.length : ℚ) + listMax T / (T.length : ℚ)
      linarith

/-- Witness for C7: a single descriptor at time 1. -/
theorem C7_root_ancestors_witness :
    ∃ r1 r2 rest,
      run (fun _ => (0, 1, [0])) 1 [((1 : ℚ), [0])] = r1 :: r2 :: rest ∧
      r1.start = 0 ∧ r1.stop = 1 ∧ r1.focal_sites = [] ∧
      r1.haplotype = List.replicate 1 0 ∧
      r2.start = 0 ∧ r2.stop = 1 ∧ r2.focal_sites = [] ∧
      r2.haplotype = List.replicate 1 0 ∧
      (∀ d ∈ [((1 : ℚ), [0])], d.1 < r2.time ∧ d.1 < r1.time) ∧
      rest = run_synchronous (fun _ => (0, 1, [0]))
        (sortDescriptors [((1 : ℚ), [0])]) :=
  C7_root_ancestors (fun _ => (0, 1, [0])) 1 [((1 : ℚ), [0])]
    (by simp) (by norm_num)

theorem foldl_argmin_le_init (times : ℕ → ℚ) (l : List ℕ) :
    ∀ best : ℕ,
      times (l.foldl (fun best q => if times q < times best then q else best) best) ≤
        times best := by
  induction l with
  | nil => intro best; exact le_refl _
  | cons a l ih =>
    intro best
    rw [List.foldl_cons]
    refine le_trans (ih _) ?_
    by_cases h : times a < times best
    · rw [if_pos h]
      exact le_of_lt h
    · rw [if_neg h]

theorem foldl_argmin_le_mem (times : ℕ → ℚ) (l : List ℕ) :
    ∀ (best x : ℕ), x ∈ l →
      times (l.foldl (fun best q => if times q < times best then q else best) best) ≤
        times x := by
  induction l with
  | nil => intro best x hx; exact absurd hx (List.not_mem_nil x)
  | cons a l ih =>
    intro best x hx
    rcases List.mem_cons.mp hx with rfl | hx
    · rw [List.foldl_cons]
      refine le_trans (foldl_argmin_le_init times l _) ?_
      by_cases h : times x < times best
      · rw [if_pos h]
      · rw [if_neg h]
        exact le_of_not_lt h
    · exact ih _ x hx

theorem argminTime_le (times : ℕ → ℚ) (l : List ℕ) (x : ℕ) (hx : x ∈ l) :
    times (argminTime times l) ≤ times x := by
  cases l with
  | nil => exact absurd hx (List.not_mem_nil x)
  | cons p ps =>
    rcases List.mem_cons.mp hx with rfl | hx
    · exact foldl_argmin_le_init times ps x
    · exact foldl_argmin_le_mem times ps p x hx

/-- C2: when a computed sample path contains a parent strictly younger than
the sample node, the commit loop of `SampleMatcher._match_samples` raises a
hard error identifying a parent that is indeed younger than the reported
sample, and the offending sample's path and mutations are never added to
the builder. -/
theorem C2_younger_parent_fatal (times : ℕ → ℚ) (results : List MatchResult)
    (s0 : TsbState) (r : MatchResult) (hmem : r ∈ results)
    (hfreshp : ∀ q ∈ s0.paths, q.1 ≠ r.node)
    (hfreshm : ∀ m ∈ s0.muts, m.1 ≠ r.node)
    (hnodes : (results.map MatchResult.node).Nodup)
    (hy : ∃ p ∈ r.path.parent, times p < times r.node) :
    (∃ n p, (commitSamplePaths times results s0).2 = some (n, p) ∧
      times p < times n) ∧
    (∀ q ∈ (commitSamplePaths times results s0).1.paths, q.1 ≠ r.node) ∧
    (∀ m ∈ (commitSamplePaths times results s0).1.muts, m.1 ≠ r.node) := by
  induction results generalizing s0 with
  | nil => exact absurd hmem (List.not_mem_nil r)
  | cons a rs ih =>
    by_cases hc : a.path.parent.any (fun p => decide (times a.node > times p)) = true
    · have hstep : commitSamplePaths times (a :: rs) s0 =
          (s0, some (a.node, argminTime times a.path.parent)) := by
        rw [commitSamplePaths, if_pos hc]
      obtain ⟨p0, hp0, hp0lt⟩ := List.any_eq_true.mp hc
      rw [hstep]
      refine ⟨⟨a.node, argminTime times a.path.parent, rfl, ?_⟩, hfreshp, hfreshm⟩
      exact lt_of_le_of_lt (argminTime_le times a.path.parent p0 hp0)
        (of_decide_eq_true hp0lt)
    · have hstep : commitSamplePaths times (a :: rs) s0 =
          commitSamplePaths times rs
            ((s0.add_path a.node a.path).add_mutations a.node
              a.mutations_site a.mutations_derived_state) := by
        rw [commitSamplePaths, if_neg hc]
      rcases List.mem_cons.mp hmem with rfl | hmem2
      · exfalso
        obtain ⟨p, hp, hplt⟩ := hy
        exact hc (List.any_eq_true.mpr ⟨p, hp, decide_eq_true hplt⟩)
      · have hanode : a.node ≠ r.node := by
          intro heq
          have h1 : a.node ∉ rs.map MatchResult.node :=
            (List.nodup_cons.mp hnodes).1
          exact h1 (heq ▸ List.mem_map_of_mem MatchResult.node hmem2)
        rw [hstep]
        refine ih _ hmem2 ?_ ?_ (List.nodup_cons.mp hnodes).2
        · intro q hq
          simp only [TsbState.add_mutations, TsbState.add_path,
            List.mem_append, List.mem_singleton] at hq
          rcases hq with hq | rfl
          · exact hfreshp q hq
          · exact hanode
        · intro m hm
          simp only [TsbState.add_mutations, TsbState.add_path,
            List.mem_append, List.mem_singleton] at hm
          rcases hm with hm | rfl
          · exact hfreshm m hm
          · exact hanode

/-- Witness for C2: a sample node at time 2 whose only parent has time 1. -/
theorem C2_younger_parent_fatal_witness :
    (∃ n p, (commitSamplePaths (fun n => if n = 0 then 2 else 1)
        [MatchResult.mk 0 (Path.mk [0] [1] [1]) [] []]
        (TsbState.mk [] [])).2 = some (n, p) ∧
      (fun n => if n = 0 then (2 : ℚ) else 1) p <
        (fun n => if n = 0 then (2 : ℚ) else 1) n) ∧
    (∀ q ∈ (commitSamplePaths (fun n => if n = 0 then 2 else 1)
        [MatchResult.mk 0 (Path.mk [0] [1] [1]) [] []]
        (TsbState.mk [] [])).1.paths,
      q.1 ≠ (MatchResult.mk 0 (Path.mk [0] [1] [1]) ([] : List ℕ)
        ([] : List ℤ)).node) ∧
    (∀ m ∈ (commitSamplePaths (fun n => if n = 0 then 2 else 1)
        [MatchResult.mk 0 (Path.mk [0] [1] [1]) [] []]
        (TsbState.mk [] [])).1.muts,
      m.1 ≠ (MatchResult.mk 0 (Path.mk [0] [1] [1]) ([] : List ℕ)
        ([] : List ℤ)).node) :=
  C2_younger_parent_fatal (fun n => if n = 0 then 2 else 1)
    [MatchResult.mk 0 (Path.mk [0] [1] [1]) [] []]
    (TsbState.mk [] [])
    (MatchResult.mk 0 (Path.mk [0] [1] [1]) [] [])
    (List.mem_cons_self _ _)
    (by intro q hq; exact absurd hq (List.not_mem_nil q))
    (by intro m hm; exact absurd hm (List.not_mem_nil m))
    (by simp)
    ⟨1, List.mem_cons_self _ _, by norm_num⟩

/-- C8: restoring from an ancestors tree sequence with a non-positive node
time, an edge coordinate that is not an inference site position, or an edge
whose parent is strictly younger than its child, fails with an error rather
than succeeding. -/
theorem C8_restore_revalidates (ssl tsl : ℚ)
    (position_map nodes_time : List ℚ) (edges : List TsEdge)
    (hbad : (∃ t ∈ nodes_time, t ≤ 0) ∨
      (∃ e ∈ edges, e.left ∉ position_map ∨ e.right ∉ position_map) ∨
      (∃ e ∈ edges, nodes_time.getD e.parent 0 < nodes_time.getD e.child 0)) :
    ∃ msg, restore_tree_sequence_builder ssl tsl position_map nodes_time edges =
      Except.error msg := by
  unfold restore_tree_sequence_builder
  by_cases h1 : ssl ≠ tsl
  · exact ⟨_, by rw [if_pos h1]⟩
  · rw [if_neg h1]
    by_cases h2 : nodes_time.any (fun t => decide (t ≤ 0)) = true
    · exact ⟨_, by rw [if_pos h2]⟩
    · rw [if_neg h2]
      by_cases h3 : edges.any (fun e => decide (e.left ∉ position_map)) = true
      · exact ⟨_, by rw [if_pos h3]⟩
      · rw [if_neg h3]
        by_cases h4 : edges.any (fun e => decide (e.right ∉ position_map)) = true
        · exact ⟨_, by rw [if_pos h4]⟩
        · rw [if_neg h4]
          have hyoung : ∃ e ∈ edges,
              nodes_time.getD e.parent 0 < nodes_time.getD e.child 0 := by
            rcases hbad with hb | hb | hb
            · exfalso
              obtain ⟨t, ht, htle⟩ := hb
              exact h2 (List.any_eq_true.mpr ⟨t, ht, decide_eq_true htle⟩)
            · exfalso
              obtain ⟨e, he, hco⟩ := hb
              rcases hco with hco | hco
              · exact h3 (List.any_eq_true.mpr ⟨e, he, decide_eq_true hco⟩)
              · exact h4 (List.any_eq_true.mpr ⟨e, he, decide_eq_true hco⟩)
            · exact hb
          obtain ⟨e, he, helt⟩ := hyoung
          have hmem : e ∈ List.insertionSort edgeLE edges :=
            (List.perm_insertionSort edgeLE edges).mem_iff.mpr he
          have hany : (List.insertionSort edgeLE edges).any
              (fun e => decide (nodes_time.getD e.parent 0 <
                nodes_time.getD e.child 0)) = true :=
            List.any_eq_true.mpr ⟨e, hmem, decide_eq_true helt⟩
          exact ⟨_, by rw [restore_edges, if_pos hany]⟩

/-- Witness for C8: two nodes with times 2 and 1 and an edge making node 0
(time 2) copy from node 1 (time 1). -/
theorem C8_restore_revalidates_witness :
    ∃ msg, restore_tree_sequence_builder 10 10 [0, 10] [2, 1]
        [TsEdge.mk 0 10 1 0] = Except.error msg :=
  C8_restore_revalidates 10 10 [0, 10] [2, 1] [TsEdge.mk 0 10 1 0]
    (Or.inr (Or.inr ⟨TsEdge.mk 0 10 1 0, List.mem_cons_self _ _, by norm_num⟩))

theorem heapPush_map (g : ℕ → Ancestor) (i : ℕ) :
    ∀ l : List ℕ, heapPush (i, g i) (l.map (fun k => (k, g k))) =
      (insertIdxSorted i l).map (fun k => (k, g k)) := by
  intro l
  induction l with
  | nil => rfl
  | cons k ks ih =>
    simp only [List.map_cons, heapPush, insertIdxSorted]
    by_cases h : i ≤ k
    · simp [h]
    · simp [h, ih]

theorem mem_insertIdxSorted (i x : ℕ) :
    ∀ l : List ℕ, (x ∈ insertIdxSorted i l ↔ x = i ∨ x ∈ l) := by
  intro l
  induction l with
  | nil => simp [insertIdxSorted]
  | cons k ks ih =>
    simp only [insertIdxSorted]
    by_cases h : i ≤ k
    · simp only [if_pos h, List.mem_cons]
    · simp only [if_neg h, List.mem_cons, ih]
      tauto

theorem sorted_insertIdxSorted (i : ℕ) :
    ∀ l : List ℕ, List.Sorted (· < ·) l → i ∉ l →
      List.Sorted (· < ·) (insertIdxSorted i l) := by
  intro l
  induction l with
  | nil => intro _ _; simp [insertIdxSorted]
  | cons k ks ih =>
    intro hs hni
    have hik : i ≠ k := fun h => hni (h ▸ List.mem_cons_self k ks)
    have hks := List.sorted_cons.mp hs
    rw [insertIdxSorted]
    by_cases h : i ≤ k
    · rw [if_pos h, List.sorted_cons]
      refine ⟨?_, hs⟩
      intro b hb
      rcases List.mem_cons.mp hb with rfl | hb
      · exact lt_of_le_of_ne h hik
      · exact lt_of_le_of_lt h (hks.1 b hb)
    · rw [if_neg h, List.sorted_cons]
      refine ⟨?_, ih hks.2 (fun hm => hni (List.mem_cons_of_mem _ hm))⟩
      intro b hb
      rcases (mem_insertIdxSorted i b ks).mp hb with rfl | hb
      · exact lt_of_not_le h
      · exact hks.1 b hb

theorem insertIdxSorted_perm (i : ℕ) :
    ∀ l : List ℕ, (insertIdxSorted i l).Perm (i :: l) := by
  intro l
  induction l with
  | nil => simp [insertIdxSorted]
  | cons k ks ih =>
    rw [insertIdxSorted]
    by_cases h : i ≤ k
    · rw [if_pos h]
    · rw [if_neg h]
      exact (ih.cons k).trans (List.Perm.swap i k ks)

theorem drainAddQueue_eq (g : ℕ → Ancestor) :
    ∀ (l : List ℕ) (next : ℕ), List.Sorted (· < ·) l → (∀ j ∈ l, next ≤ j) →
      ∃ next2, next ≤ next2 ∧
        drainAddQueue next (l.map (fun i => (i, g i))) =
          ((List.range' next (next2 - next)).map g, next2,
            (l.filter (fun j => decide (next2 ≤ j))).map (fun i => (i, g i))) ∧
        (∀ k, next ≤ k → k < next2 → k ∈ l) ∧ next2 ∉ l := by
  intro l
  induction l with
  | nil =>
    intro next _ _
    refine ⟨next, le_refl _, ?_, by omega, List.not_mem_nil _⟩
    simp [drainAddQueue]
  | cons j rest ih =>
    intro next hs hge
    have hjge : next ≤ j := hge j (List.mem_cons_self j rest)
    have hrest := List.sorted_cons.mp hs
    by_cases hj : j = next
    · obtain ⟨next2, h21, heq, hmem, hnot⟩ := ih (next + 1) hrest.2
        (fun k hk => by have := hrest.1 k hk; omega)
      refine ⟨next2, by omega, ?_, ?_, ?_⟩
      · rw [List.map_cons, drainAddQueue, if_pos hj, heq]
        have hdelta : next2 - next = (next2 - (next + 1)) + 1 := by omega
        rw [hdelta, List.range'_succ, List.map_cons]
        have hfilter : decide (next2 ≤ j) = false :=
          decide_eq_false (by omega)
        rw [List.filter_cons, hfilter]
        simp [hj]
      · intro k hk1 hk2
        by_cases hkj : k = j
        · exact hkj ▸ List.mem_cons_self j rest
        · exact List.mem_cons_of_mem j (hmem k (by omega) hk2)
      · intro hmem2
        rcases List.mem_cons.mp hmem2 with rfl | hmem2
        · omega
        · exact hnot hmem2
    · have hjgt : next < j := lt_of_le_of_ne hjge (fun h => hj h.symm)
      refine ⟨next, le_refl _, ?_, by omega, ?_⟩
      · rw [List.map_cons, drainAddQueue, if_neg hj]
        have hfilter : (j :: rest).filter (fun k => decide (next ≤ k)) =
            j :: rest := by
          rw [List.filter_eq_self]
          intro a ha
          rcases List.mem_cons.mp ha with rfl | ha
          · exact decide_eq_true (le_of_lt hjgt)
          · exact decide_eq_true (by have := hrest.1 a ha; omega)
        rw [Nat.sub_self, hfilter]
        rfl
      · intro hmem2
        rcases List.mem_cons.mp hmem2 with rfl | hmem2
        · exact hj rfl
        · have := hrest.1 next hmem2
          omega

theorem range_append_range' (a b : ℕ) (h : a ≤ b) :
    List.range a ++ List.range' a (b - a) = List.range b := by
  rw [List.range_eq_range', List.range_eq_range']
  have h2 := List.range'_append 0 a (b - a) 1
  simp only [Nat.one_mul, Nat.zero_add] at h2
  rw [h2]
  congr 1
  omega

theorem map_range_getD (f : Descriptor → Ancestor) :
    ∀ ds : List Descriptor,
      (List.range ds.length).map (fun i => f (ds.getD i default)) = ds.map f := by
  intro ds
  induction ds with
  | nil => simp
  | cons d ds ih =>
    rw [List.length_cons, List.range_succ_eq_map, List.map_cons, List.map_map,
      List.map_cons]
    refine congrArg₂ List.cons rfl ?_
    exact (List.map_congr_left (fun i _ => rfl)).trans ih

theorem enum_getD (ds : List Descriptor) (p : ℕ × Descriptor)
    (hp : p ∈ ds.enum) : p.1 < ds.length ∧ ds.getD p.1 default = p.2 := by
  have h := List.mem_enum_iff_getElem?.mp hp
  obtain ⟨hlt, _⟩ := List.getElem?_eq_some.mp h
  refine ⟨hlt, ?_⟩
  rw [List.getD_eq_getElem?_getD, h]
  rfl

theorem run_threaded_loop (makeAncestor : List ℕ → ℕ × ℕ × List ℤ)
    (ds : List Descriptor) :
    ∀ (todo : List (ℕ × Descriptor)) (pending : List ℕ) (next : ℕ),
      List.Sorted (· < ·) pending →
      (∀ j ∈ pending, next < j) →
      (todo.map Prod.fst ++ (pending ++ List.range next)).Perm
        (List.range ds.length) →
      (∀ p ∈ todo, p ∈ ds.enum) →
      finishThreaded (todo.foldl (threadStep makeAncestor)
        { next_add_index := next
          add_queue := pending.map
            (fun i => (i, buildAncestor makeAncestor (ds.getD i default)))
          added := (List.range next).map
            (fun i => buildAncestor makeAncestor (ds.getD i default)) }) =
      (List.range ds.length).map
        (fun i => buildAncestor makeAncestor (ds.getD i default)) := by
  intro todo
  induction todo with
  | nil =>
    intro pending next hsort hgt hperm _
    simp only [List.map_nil, List.nil_append] at hperm
    have hlen : pending.length + next = ds.length := by
      have h := hperm.length_eq
      simpa using h
    have hge : ds.length ≤ next := by
      by_contra hlt
      push_neg at hlt
      have hmem : next ∈ pending ++ List.range next :=
        hperm.mem_iff.mpr (List.mem_range.mpr hlt)
      rcases List.mem_append.mp hmem with h | h
      · exact absurd (hgt next h) (lt_irrefl next)
      · exact absurd (List.mem_range.mp h) (lt_irrefl next)
    have hpend : pending = [] := List.length_eq_zero.mp (by omega)
    have hnext : next = ds.length := by omega
    subst hpend
    subst hnext
    simp [finishThreaded, drainAddQueue]
  | cons w rest ih =>
    intro pending next hsort hgt hperm henum
    obtain ⟨i, d⟩ := w
    have hw := henum (i, d) (List.mem_cons_self _ _)
    obtain ⟨hilt, hgd⟩ := enum_getD ds (i, d) hw
    have Hp : (i :: (rest.map Prod.fst ++ (pending ++ List.range next))).Perm
        (List.range ds.length) := by
      simpa using hperm
    have hnd : (i :: (rest.map Prod.fst ++ (pending ++ List.range next))).Nodup :=
      Hp.nodup_iff.mpr (List.nodup_range _)
    have hinot : i ∉ rest.map Prod.fst ++ (pending ++ List.range next) :=
      (List.nodup_cons.mp hnd).1
    have hip : i ∉ pending := fun h =>
      hinot (List.mem_append_right _ (List.mem_append_left _ h))
    have hirange : next ≤ i := by
      by_contra hlt
      push_neg at hlt
      exact hinot (List.mem_append_right _ (List.mem_append_right _
        (List.mem_range.mpr hlt)))
    have hsort2 : List.Sorted (· < ·) (insertIdxSorted i pending) :=
      sorted_insertIdxSorted i pending hsort hip
    have hge2 : ∀ j ∈ insertIdxSorted i pending, next ≤ j := by
      intro j hj
      rcases (mem_insertIdxSorted i j pending).mp hj with rfl | hj
      · exact hirange
      · exact le_of_lt (hgt j hj)
    obtain ⟨next2, h2le, heq, hmemk, hnot2⟩ :=
      drainAddQueue_eq (fun i => buildAncestor makeAncestor (ds.getD i default))
        (insertIdxSorted i pending) next hsort2 hge2
    have hpush := heapPush_map
      (fun i => buildAncestor makeAncestor (ds.getD i default)) i pending
    rw [hgd] at hpush
    have hstep : threadStep makeAncestor
        { next_add_index := next
          add_queue := pending.map
            (fun i => (i, buildAncestor makeAncestor (ds.getD i default)))
          added := (List.range next).map
            (fun i => buildAncestor makeAncestor (ds.getD i default)) } (i, d) =
        { next_add_index := next2
          add_queue := ((insertIdxSorted i pending).filter
              (fun j => decide (next2 ≤ j))).map
            (fun i => (i, buildAncestor makeAncestor (ds.getD i default)))
          added := (List.range next2).map
            (fun i => buildAncestor makeAncestor (ds.getD i default)) } := by
      simp only [threadStep, hpush, heq]
      rw [← List.map_append, range_append_range' next next2 h2le]
    have hsort3 : List.Sorted (· < ·)
        ((insertIdxSorted i pending).filter (fun j => decide (next2 ≤ j))) :=
      List.Pairwise.filter _ hsort2
    have hgt3 : ∀ j ∈ (insertIdxSorted i pending).filter
        (fun j => decide (next2 ≤ j)), next2 < j := by
      intro j hj
      have hj2 := List.mem_filter.mp hj
      have hle := of_decide_eq_true hj2.2
      have hne : j ≠ next2 := fun h => hnot2 (h ▸ hj2.1)
      omega
    have hnodup2 : (insertIdxSorted i pending).Nodup :=
      hsort2.imp ne_of_lt
    have hlow : ((insertIdxSorted i pending).filter
        (fun j => !decide (next2 ≤ j))).Perm
        (List.range' next (next2 - next)) := by
      rw [List.perm_ext_iff_of_nodup (hnodup2.filter _) (List.nodup_range' _ _)]
      intro a
      rw [List.mem_filter, List.mem_range']
      constructor
      · rintro ⟨ha, hdec⟩
        have h1 : ¬ next2 ≤ a := by simpa using hdec
        have h2 : next ≤ a := hge2 a ha
        exact ⟨a - next, by omega, by omega⟩
      · rintro ⟨k, hk, rfl⟩
        have h1 : next + 1 * k < next2 := by omega
        refine ⟨hmemk _ (by omega) (by omega), ?_⟩
        simp only [Bool.not_eq_true', decide_eq_false_iff_not]
        omega
    have hkey : (((insertIdxSorted i pending).filter
          (fun j => decide (next2 ≤ j))) ++
        List.range' next (next2 - next)).Perm (insertIdxSorted i pending) :=
      (List.Perm.append_left _ hlow.symm).trans
        (List.filter_append_perm _ (insertIdxSorted i pending))
    have hassemble : (rest.map Prod.fst ++
        (((insertIdxSorted i pending).filter (fun j => decide (next2 ≤ j))) ++
          List.range next2)).Perm (List.range ds.length) := by
      rw [← range_append_range' next next2 h2le]
      refine List.Perm.trans (List.Perm.trans
        (List.Perm.append_left (rest.map Prod.fst) ?_) List.perm_middle) Hp
      rw [show i :: (pending ++ List.range next) =
        (i :: pending) ++ List.range next from rfl]
      refine List.Perm.trans ?_
        (List.Perm.append_right _ (insertIdxSorted_perm i pending))
      refine List.Perm.trans
        (List.Perm.append_left _ List.perm_append_comm) ?_
      rw [← List.append_assoc]
      exact List.Perm.append_right _ hkey
    rw [List.foldl_cons, hstep]
    exact ih _ next2 hsort3 hgt3 hassemble
      (fun p hp => henum p (List.mem_cons_of_mem _ hp))

/-- C6: for every completion order of the build workers (any permutation of
the enumerated descriptors; queue insertions are serialised by `add_lock`),
`_run_threaded` records exactly the same ancestors, in the same order, as
`_run_synchronous`. -/
theorem C6_threaded_eq_synchronous (makeAncestor : List ℕ → ℕ × ℕ × List ℤ)
    (ds : List Descriptor) (completed : List (ℕ × Descriptor))
    (hperm : completed.Perm ds.enum) :
    run_threaded makeAncestor completed = run_synchronous makeAncestor ds := by
  have hmain := run_threaded_loop makeAncestor ds completed [] 0
    (by simp) (by simp)
    (by simpa [List.enum_map_fst] using hperm.map Prod.fst)
    (fun p hp => hperm.subset hp)
  refine Eq.trans ?_ (Eq.trans hmain (map_range_getD (buildAncestor makeAncestor) ds))
  rfl

/-- Witness for C6: two descriptors completed by the workers in reverse
order. -/
theorem C6_threaded_eq_synchronous_witness :
    run_threaded (fun _ => (0, 1, [0]))
      [(1, ((2 : ℚ), [1])), (0, ((1 : ℚ), [0]))] =
      run_synchronous (fun _ => (0, 1, [0])) [((1 : ℚ), [0]), ((2 : ℚ), [1])] :=
  C6_threaded_eq_synchronous (fun _ => (0, 1, [0]))
    [((1 : ℚ), [0]), ((2 : ℚ), [1])]
    [(1, ((2 : ℚ), [1])), (0, ((1 : ℚ), [0]))]
    (List.Perm.swap (0, ((1 : ℚ), [0])) (1, ((2 : ℚ), [1])) [])

end Tsinfer
